import Mathlib

/-!
# Binary search tree (`src/bst.c`) and array queue (`src/queue.c`)

Shallow embedding of the two C programs and proofs of their specified
properties.

Modelling conventions.

* C `int` values are modelled by `Int`.  `bst.c` only compares and copies
  values, and `queue.c` only adds or subtracts one to indices that stay within
  `-1 .. SIZE`, so no arithmetic can leave the 32-bit range.
* A `struct Node*` is modelled by the inductive type `BST.Node` (`NULL` is
  `Node.null`); the in-place update `root->left = insert(root->left, data)`
  followed by `return root` is the functional rebuild of the node.
* `printf` output is modelled by the list of values (tree traversals) or of
  output events (`Queue.Out`) emitted, in order.
* The globals `front`, `rear`, `inp_array` of `queue.c` are the fields of
  `Queue.State`, threaded through every operation.  The value read by `scanf`
  in `enqueue` is the extra argument `x`.
-/

namespace BST

/-- A `struct Node*`: either `NULL` or a node with `data`, `left`, `right`. -/
inductive Node where
  | null : Node
  | mk (data : Int) (left right : Node) : Node
  deriving DecidableEq, Repr

/-- `createNode(data)`: a fresh node with both children `NULL`. -/
def createNode (data : Int) : Node := Node.mk data Node.null Node.null

/-- `inorderTraversal(root)`: the values printed, in order. -/
def inorderTraversal : Node → List Int
  | Node.null => []
  | Node.mk d l r => inorderTraversal l ++ [d] ++ inorderTraversal r

/-- `preorder(root)`: the values printed, in order. -/
def preorder : Node → List Int
  | Node.null => []
  | Node.mk d l r => [d] ++ preorder l ++ preorder r

/-- `postorder(root)`: the values printed, in order. -/
def postorder : Node → List Int
  | Node.null => []
  | Node.mk d l r => postorder l ++ postorder r ++ [d]

/-- `insert(root, data)`. -/
def insert : Node → Int → Node
  | Node.null, data => createNode data
  | Node.mk d l r, data =>
    if data < d then Node.mk d (insert l data) r
    else Node.mk d l (insert r data)

/-- The tree obtained from `NULL` by `root = insert(root, x)` for each `x` of
`xs`, in order. -/
def insertAll (xs : List Int) : Node := xs.foldl insert Node.null

/-- Every value stored in the tree satisfies `p`. -/
def Node.All (p : Int → Prop) : Node → Prop
  | Node.null => True
  | Node.mk d l r => p d ∧ Node.All p l ∧ Node.All p r

/-- The ordering invariant: at every node, the values of the left subtree are
strictly smaller than the node's value and those of the right subtree are
greater or equal. -/
def Ordered : Node → Prop
  | Node.null => True
  | Node.mk d l r =>
    Node.All (fun x => x < d) l ∧ Node.All (fun x => d ≤ x) r ∧ Ordered l ∧ Ordered r

instance Node.decidableAll (p : Int → Prop) [DecidablePred p] :
    (t : Node) → Decidable (Node.All p t)
  | Node.null => isTrue trivial
  | Node.mk d l r =>
    have := Node.decidableAll p l
    have := Node.decidableAll p r
    inferInstanceAs (Decidable (p d ∧ Node.All p l ∧ Node.All p r))

instance decidableOrdered : (t : Node) → Decidable (Ordered t)
  | Node.null => isTrue trivial
  | Node.mk d l r =>
    have := decidableOrdered l
    have := decidableOrdered r
    inferInstanceAs (Decidable
      (Node.All (fun x => x < d) l ∧ Node.All (fun x => d ≤ x) r ∧ Ordered l ∧ Ordered r))

/-- Every node of the tree has `left == NULL`: the tree is a chain that leans
to the right. -/
def RightChain : Node → Prop
  | Node.null => True
  | Node.mk _ l r => l = Node.null ∧ RightChain r

instance decidableRightChain : (t : Node) → Decidable (RightChain t)
  | Node.null => isTrue trivial
  | Node.mk _ l r =>
    have := decidableRightChain r
    inferInstanceAs (Decidable (l = Node.null ∧ RightChain r))

/-- The number of nodes of the tree. -/
def nodeCount : Node → Nat
  | Node.null => 0
  | Node.mk _ l r => nodeCount l + 1 + nodeCount r

/-- The values `main` inserts, in order. -/
def mainValues : List Int := [35, 58, 40, 25, 30, 60, 78, 20, 28]

/-- `main()`: the values printed on the `Inorder`, `Preorder` and `Postorder`
lines.  The first `insert` yields the root; the later calls update that tree in
place and return the same root. -/
def main : List Int × List Int × List Int :=
  (inorderTraversal (insertAll mainValues), preorder (insertAll mainValues),
    postorder (insertAll mainValues))

end BST

namespace Queue

/-- The capacity `#define SIZE 4`. -/
def SIZE : Int := 4

/-- The globals `front`, `rear` and `inp_array[SIZE]`. -/
structure State where
  front : Int
  rear : Int
  inp_array : List Int
  deriving DecidableEq, Repr

/-- The initial globals: `front = -1, rear = -1`, and a zero-initialised array
of `SIZE` cells. -/
def init : State := { front := -1, rear := -1, inp_array := List.replicate SIZE.toNat 0 }

/-- The read `arr[i]` for an `int` index `i`.  Every index used on a state
satisfying `Inv` lies in `0 .. SIZE-1`; outside that range C leaves the read
undefined and the model yields `0`. -/
def readAt (arr : List Int) (i : Int) : Int := arr.getD i.toNat 0

/-- The write `arr[i] = x` for an `int` index `i` (see `readAt` for indices out
of range, where the model leaves the array as it is). -/
def writeAt (arr : List Int) (i : Int) (x : Int) : List Int := arr.set i.toNat x

/-- What the program prints, one event per `printf` call. -/
inductive Out where
  | menu : Out
  | overflow : Out
  | enterElement : Out
  | underflow : Out
  | dequeued (v : Int) : Out
  | queueEmpty : Out
  | elementsPresent : Out
  | element (v : Int) : Out
  | sizeOfQueue (n : Int) : Out
  | maxElement (n : Int) : Out
  | invalidChoice : Out
  deriving DecidableEq, Repr

/-- The test `front == -1 || front > rear` shared by `dequeue`, `show`, `size`
and `findMax`. -/
def emptyTest (s : State) : Prop := s.front = -1 ∨ s.front > s.rear

instance (s : State) : Decidable (emptyTest s) := by
  unfold emptyTest
  exact inferInstance

/-- `enqueue()`, with `x` the integer that `scanf` reads when the queue accepts
an element.  Returns the new globals and the output. -/
def enqueue (s : State) (x : Int) : State × List Out :=
  if s.rear = SIZE - 1 then
    (s, [Out.overflow])
  else
    let front := if s.front = -1 then 0 else s.front
    let rear := s.rear + 1
    ({ front := front, rear := rear, inp_array := writeAt s.inp_array rear x },
      [Out.enterElement])

/-- `dequeue()`.  Returns the new globals and the output. -/
def dequeue (s : State) : State × List Out :=
  if emptyTest s then
    (s, [Out.underflow])
  else
    ({ s with front := s.front + 1 }, [Out.dequeued (readAt s.inp_array s.front)])

/-- The values `arr[i], arr[i+1], ...` visited by `n` rounds of a loop
`for (...; i <= rear; i++)` starting at index `i`. -/
def scan (arr : List Int) : Nat → Int → List Int
  | 0, _ => []
  | n + 1, i => readAt arr i :: scan arr n (i + 1)

/-- `show()`: the output.  The loop `for (i = front; i <= rear; i++)` runs
`rear - front + 1` rounds. -/
def «show» (s : State) : List Out :=
  if emptyTest s then
    [Out.queueEmpty]
  else
    Out.elementsPresent ::
      (scan s.inp_array (s.rear - s.front + 1).toNat s.front).map Out.element

/-- `size()`. -/
def size (s : State) : Int :=
  if emptyTest s then 0 else s.rear - s.front + 1

/-- The loop of `findMax`: `n` rounds of
`if (inp_array[i] > max) max = inp_array[i]; i++`. -/
def findMaxLoop (arr : List Int) : Nat → Int → Int → Int
  | 0, _, max => max
  | n + 1, i, max =>
    findMaxLoop arr n (i + 1) (if readAt arr i > max then readAt arr i else max)

/-- `findMax()`: the output and the returned `int`.  The loop
`for (i = front + 1; i <= rear; i++)` runs `rear - front` rounds. -/
def findMax (s : State) : List Out × Int :=
  if emptyTest s then
    ([Out.queueEmpty], 0)
  else
    ([], findMaxLoop s.inp_array (s.rear - s.front).toNat (s.front + 1)
      (readAt s.inp_array s.front))

/-- One round of the `while (1)` loop of `main` on the choice read by `scanf`
(`x` is the value `enqueue` reads).  The state is `none` when the round calls
`exit(0)`.  Case 5 has no `break` and falls through into case 6. -/
def mainRound (s : State) (choice : Int) (x : Int) : Option State × List Out :=
  if choice = 1 then (some (enqueue s x).1, Out.menu :: (enqueue s x).2)
  else if choice = 2 then (some (dequeue s).1, Out.menu :: (dequeue s).2)
  else if choice = 3 then (some s, Out.menu :: «show» s)
  else if choice = 4 then (some s, [Out.menu, Out.sizeOfQueue (size s)])
  else if choice = 5 then
    (none, Out.menu :: ((findMax s).1 ++ [Out.maxElement (findMax s).2]))
  else if choice = 6 then (none, [Out.menu])
  else (some s, [Out.menu, Out.invalidChoice])

/-- The front-to-rear contents: the elements at positions `front .. rear`. -/
def contents (s : State) : List Int :=
  if emptyTest s then [] else scan s.inp_array (s.rear - s.front + 1).toNat s.front

/-- A mutating queue operation. -/
inductive Op where
  | enq (x : Int) : Op
  | deq : Op
  deriving DecidableEq, Repr

/-- The effect of one operation on the globals, with its output. -/
def step (s : State) : Op → State × List Out
  | Op.enq x => enqueue s x
  | Op.deq => dequeue s

/-- The globals after a sequence of operations. -/
def run (s : State) (ops : List Op) : State := ops.foldl (fun t op => (step t op).1) s

/-- The value an operation puts into the queue: the `x` of an `enqueue` that
does not print `Overflow!!`. -/
def acceptedBy (s : State) : Op → Option Int
  | Op.enq x => if (enqueue s x).2 = [Out.overflow] then none else some x
  | Op.deq => none

/-- The value an operation takes out of the queue: the one printed by a
`dequeue` that does not print `Underflow!!`. -/
def removedBy (s : State) : Op → Option Int
  | Op.enq _ => none
  | Op.deq => if emptyTest s then none else some (readAt s.inp_array s.front)

/-- The values accepted by the successful enqueues of a sequence of
operations, in order. -/
def accepted (s : State) : List Op → List Int
  | [] => []
  | op :: ops => (acceptedBy s op).toList ++ accepted (step s op).1 ops

/-- The values returned by the successful dequeues of a sequence of
operations, in order. -/
def removed (s : State) : List Op → List Int
  | [] => []
  | op :: ops => (removedBy s op).toList ++ removed (step s op).1 ops

/-- The index invariant of the globals: the array has `SIZE` cells, and either
nothing was ever enqueued or `0 ≤ front ≤ rear + 1 ≤ SIZE`. -/
def Inv (s : State) : Prop :=
  s.inp_array.length = SIZE.toNat ∧
    ((s.front = -1 ∧ s.rear = -1) ∨ (0 ≤ s.front ∧ s.front ≤ s.rear + 1 ∧ s.rear ≤ SIZE - 1))

instance (s : State) : Decidable (Inv s) := by
  unfold Inv
  exact inferInstance

/-- The output of a sequence of operations: what each one prints, in order. -/
def trace (s : State) : List Op → List Out
  | [] => []
  | op :: ops => (step s op).2 ++ trace (step s op).1 ops

/-- The value carried by an output line of the loop of `show`. -/
def Out.elementValue : Out → Option Int
  | Out.element v => some v
  | _ => none

/-- The running program: the globals and the output printed so far.  The
statement-level definitions below pass it through every statement of a
function body, so what a body does to the globals shows in the result. -/
structure Machine where
  globals : State
  out : List Out
  deriving DecidableEq, Repr

/-- The statement `printf(...)`: one more output event. -/
def printf (o : Out) (m : Machine) : Machine := { m with out := m.out ++ [o] }

/-- The loop `for (int i = front; i <= rear; i++)` of `show`, whose body prints
`inp_array[i]`, statement by statement, entered with loop variable `i`.  The test
`i <= rear` reads the current globals at every round; the result is `none` when
the fuel is used up before the test fails. -/
def Exec.showLoop : Nat → Int → Machine → Option Machine
  | 0, _, _ => none
  | fuel + 1, i, m =>
    if i ≤ m.globals.rear then
      Exec.showLoop fuel (i + 1) (printf (Out.element (readAt m.globals.inp_array i)) m)
    else
      some m

/-- `show()`, statement by statement.  The fuel allows `rear - front + 1`
rounds of the loop and the test that ends it. -/
def Exec.«show» (m : Machine) : Option Machine :=
  if m.globals.front = -1 ∨ m.globals.front > m.globals.rear then
    some (printf Out.queueEmpty m)
  else
    Exec.showLoop ((m.globals.rear - m.globals.front + 1).toNat + 1) m.globals.front
      (printf Out.elementsPresent m)

/-- `size()`, statement by statement: the program after the call and the
returned `int`. -/
def Exec.size (m : Machine) : Machine × Int :=
  if m.globals.front = -1 ∨ m.globals.front > m.globals.rear then
    (m, 0)
  else
    (m, m.globals.rear - m.globals.front + 1)

/-- The loop `for (int i = front + 1; i <= rear; i++)` of `findMax`, whose body
is `if (inp_array[i] > max) max = inp_array[i];`, statement by statement,
entered with loop variable `i` and local `max`.  The result is `none` when the
fuel is used up before the test `i <= rear` fails. -/
def Exec.findMaxLoop : Nat → Int → Int → Machine → Option (Machine × Int)
  | 0, _, _, _ => none
  | fuel + 1, i, max, m =>
    if i ≤ m.globals.rear then
      Exec.findMaxLoop fuel (i + 1)
        (if readAt m.globals.inp_array i > max then readAt m.globals.inp_array i else max) m
    else
      some (m, max)

/-- `findMax()`, statement by statement: the program after the call and the
returned `int`.  The fuel allows `rear - front` rounds of the loop and the test
that ends it. -/
def Exec.findMax (m : Machine) : Option (Machine × Int) :=
  if m.globals.front = -1 ∨ m.globals.front > m.globals.rear then
    some (printf Out.queueEmpty m, 0)
  else
    Exec.findMaxLoop ((m.globals.rear - m.globals.front).toNat + 1) (m.globals.front + 1)
      (readAt m.globals.inp_array m.globals.front) m

/-- The indices `i, i+1, ...` taken by `n` rounds of a loop
`for (...; i <= rear; i++)` starting at index `i`. -/
def loopIndices : Nat → Int → List Int
  | 0, _ => []
  | n + 1, i => i :: loopIndices n (i + 1)

/-- The indices at which `enqueue` accesses `inp_array`: `rear` after the
increment, when the queue is not full. -/
def enqueueAccess (s : State) : List Int :=
  if s.rear = SIZE - 1 then [] else [s.rear + 1]

/-- The indices at which `dequeue` accesses `inp_array`: `front`, when the
queue is not empty. -/
def dequeueAccess (s : State) : List Int :=
  if emptyTest s then [] else [s.front]

/-- The indices at which `show` accesses `inp_array`: `front .. rear`, when the
queue is not empty. -/
def showAccess (s : State) : List Int :=
  if emptyTest s then [] else loopIndices (s.rear - s.front + 1).toNat s.front

/-- The indices at which `findMax` accesses `inp_array`: `front`, then
`front + 1 .. rear`, when the queue is not empty. -/
def findMaxAccess (s : State) : List Int :=
  if emptyTest s then [] else s.front :: loopIndices (s.rear - s.front).toNat (s.front + 1)

/-- The bounds on `front` and `rear`: `-1 ≤ rear ≤ SIZE - 1`, `front` is `-1`
exactly when `rear` is, and otherwise `0 ≤ front ≤ rear + 1`. -/
def IndexInv (s : State) : Prop :=
  -1 ≤ s.rear ∧ s.rear ≤ SIZE - 1 ∧ (s.front = -1 ↔ s.rear = -1) ∧
    (s.front ≠ -1 → 0 ≤ s.front ∧ s.front ≤ s.rear + 1)

instance (s : State) : Decidable (IndexInv s) := by
  unfold IndexInv
  exact inferInstance

end Queue

namespace BST

/-! ## Helper lemmas for the tree -/

lemma all_insert (p : Int → Prop) (t : Node) (v : Int) (hv : p v) (ht : Node.All p t) :
    Node.All p (insert t v) := by
  induction t with
  | null => exact ⟨hv, trivial, trivial⟩
  | mk d l r ihl ihr =>
    obtain ⟨hd, hl, hr⟩ := ht
    unfold insert
    split
    · exact ⟨hd, ihl hl, hr⟩
    · exact ⟨hd, hl, ihr hr⟩

lemma ordered_insert (t : Node) (v : Int) (ht : Ordered t) : Ordered (insert t v) := by
  induction t with
  | null => exact ⟨trivial, trivial, trivial, trivial⟩
  | mk d l r ihl ihr =>
    obtain ⟨hl, hr, ol, or⟩ := ht
    unfold insert
    split
    · next h => exact ⟨all_insert _ l v h hl, hr, ihl ol, or⟩
    · next h => exact ⟨hl, all_insert _ r v (not_lt.mp h) hr, ol, ihr or⟩

lemma ordered_foldl (xs : List Int) (t : Node) (ht : Ordered t) :
    Ordered (xs.foldl insert t) := by
  induction xs generalizing t with
  | nil => exact ht
  | cons x xs ih => exact ih _ (ordered_insert t x ht)

lemma all_iff_inorder (p : Int → Prop) (t : Node) :
    Node.All p t ↔ ∀ x ∈ inorderTraversal t, p x := by
  induction t with
  | null => simp [Node.All, inorderTraversal]
  | mk d l r ihl ihr =>
    simp only [Node.All, inorderTraversal, ihl, ihr, List.mem_append, List.mem_singleton]
    constructor
    · rintro ⟨hd, hl, hr⟩ x ((hx | hx) | hx)
      · exact hl x hx
      · exact hx ▸ hd
      · exact hr x hx
    · intro h
      exact ⟨h d (Or.inl (Or.inr rfl)), fun x hx => h x (Or.inl (Or.inl hx)),
        fun x hx => h x (Or.inr hx)⟩

lemma sorted_of_ordered (t : Node) (ht : Ordered t) :
    List.Sorted (fun a b => a ≤ b) (inorderTraversal t) := by
  induction t with
  | null => simp [inorderTraversal]
  | mk d l r ihl ihr =>
    obtain ⟨hl, hr, ol, or⟩ := ht
    rw [all_iff_inorder] at hl hr
    simp only [inorderTraversal, List.Sorted, List.pairwise_append, List.mem_append,
      List.mem_singleton, List.pairwise_cons, List.Pairwise.nil]
    refine ⟨⟨ihl ol, ⟨by simp, trivial⟩, ?_⟩, ihr or, ?_⟩
    · intro a ha b hb
      exact hb ▸ le_of_lt (hl a ha)
    · rintro a (ha | ha) b hb
      · exact le_trans (le_of_lt (hl a ha)) (hr b hb)
      · exact ha ▸ hr b hb

lemma length_inorder_insert (t : Node) (v : Int) :
    (inorderTraversal (insert t v)).length = (inorderTraversal t).length + 1 := by
  induction t with
  | null => rfl
  | mk d l r ihl ihr =>
    unfold insert
    split <;> simp only [inorderTraversal, List.length_append, List.length_singleton, ihl, ihr] <;>
      omega

lemma length_preorder (t : Node) : (preorder t).length = (inorderTraversal t).length := by
  induction t with
  | null => rfl
  | mk d l r ihl ihr =>
    simp only [preorder, inorderTraversal, List.length_append, List.length_singleton, ihl, ihr]
    omega

lemma length_postorder (t : Node) : (postorder t).length = (inorderTraversal t).length := by
  induction t with
  | null => rfl
  | mk d l r ihl ihr =>
    simp only [postorder, inorderTraversal, List.length_append, List.length_singleton, ihl, ihr]
    omega

lemma length_inorder_foldl (xs : List Int) (t : Node) :
    (inorderTraversal (xs.foldl insert t)).length = (inorderTraversal t).length + xs.length := by
  induction xs generalizing t with
  | nil => rfl
  | cons x xs ih =>
    simp only [List.foldl_cons, List.length_cons, ih, length_inorder_insert]
    omega

end BST

namespace Queue

/-! ## Helper lemmas for the queue -/

lemma inv_init : Inv init := by decide

lemma inv_enqueue (s : State) (x : Int) (h : Inv s) : Inv (enqueue s x).1 := by
  obtain ⟨hlen, hidx⟩ := h
  unfold enqueue
  split
  · exact ⟨hlen, hidx⟩
  · next hr =>
    refine ⟨by simpa [writeAt] using hlen, Or.inr ?_⟩
    simp only [SIZE] at hr hidx ⊢
    split <;> omega

lemma inv_dequeue (s : State) (h : Inv s) : Inv (dequeue s).1 := by
  obtain ⟨hlen, hidx⟩ := h
  unfold dequeue
  split
  · exact ⟨hlen, hidx⟩
  · next he =>
    refine ⟨hlen, Or.inr ?_⟩
    simp only [emptyTest, SIZE] at he hidx ⊢
    omega

lemma inv_step (s : State) (op : Op) (h : Inv s) : Inv (step s op).1 := by
  cases op with
  | enq x => exact inv_enqueue s x h
  | deq => exact inv_dequeue s h

lemma inv_run (ops : List Op) (s : State) (h : Inv s) : Inv (run s ops) := by
  induction ops generalizing s with
  | nil => exact h
  | cons op ops ih => exact ih _ (inv_step s op h)

lemma readAt_writeAt_same (arr : List Int) (j x : Int) (hj : j.toNat < arr.length) :
    readAt (writeAt arr j x) j = x := by
  simp [readAt, writeAt, List.getD_eq_getElem?_getD, List.getElem?_set, hj]

lemma readAt_writeAt_ne (arr : List Int) (i j x : Int) (hi : 0 ≤ i) (hj : 0 ≤ j)
    (hne : i ≠ j) : readAt (writeAt arr j x) i = readAt arr i := by
  have : j.toNat ≠ i.toNat := by omega
  simp [readAt, writeAt, List.getD_eq_getElem?_getD, List.getElem?_set, this]

lemma scan_snoc (arr : List Int) (n : Nat) (i : Int) :
    scan arr (n + 1) i = scan arr n i ++ [readAt arr (i + n)] := by
  induction n generalizing i with
  | zero => simp [scan]
  | succ n ih =>
    rw [scan, ih (i + 1), scan]
    simp only [List.cons_append, Nat.cast_add, Nat.cast_one]
    rw [show i + 1 + (n : Int) = i + ((n : Int) + 1) by ring]

lemma scan_writeAt (arr : List Int) (n : Nat) (i j x : Int) (hi : 0 ≤ i)
    (hj : i + n ≤ j) : scan (writeAt arr j x) n i = scan arr n i := by
  induction n generalizing i with
  | zero => rfl
  | succ n ih =>
    simp only [scan]
    rw [ih (i + 1) (by omega) (by push_cast at hj; omega),
      readAt_writeAt_ne arr i j x hi (by omega) (by push_cast at hj; omega)]

lemma length_scan (arr : List Int) (n : Nat) (i : Int) : (scan arr n i).length = n := by
  induction n generalizing i with
  | zero => rfl
  | succ n ih => simp [scan, ih]

lemma contents_of_started (s : State) (h0 : 0 ≤ s.front) :
    contents s = scan s.inp_array (s.rear - s.front + 1).toNat s.front := by
  unfold contents
  split
  · next he =>
    have : (s.rear - s.front + 1).toNat = 0 := by
      simp only [emptyTest] at he
      omega
    rw [this, scan]
  · rfl

lemma enqueue_of_not_full (s : State) (x : Int) (hr : s.rear ≠ SIZE - 1) :
    enqueue s x =
      ({ front := if s.front = -1 then 0 else s.front, rear := s.rear + 1,
         inp_array := writeAt s.inp_array (s.rear + 1) x }, [Out.enterElement]) := by
  unfold enqueue
  rw [if_neg hr]

lemma contents_enqueue (s : State) (x : Int) (h : Inv s) (hr : s.rear ≠ SIZE - 1) :
    contents (enqueue s x).1 = contents s ++ [x] := by
  obtain ⟨hlen, hidx⟩ := h
  rw [enqueue_of_not_full s x hr]
  simp only [SIZE] at hr hlen hidx
  rcases hidx with ⟨hf, hrr⟩ | ⟨h0, h1, h2⟩
  · have he : emptyTest s := Or.inl hf
    have hlen0 : (0 : Int).toNat < s.inp_array.length := by rw [hlen]; decide
    simp only [contents, if_pos he, hf, hrr, List.nil_append]
    rw [if_neg (by simp [emptyTest])]
    simp only [if_true, Int.reduceNeg, neg_add_cancel, sub_zero, zero_add, Int.toNat_one, scan]
    rw [readAt_writeAt_same _ _ _ hlen0]
  · have hne : s.front ≠ -1 := by omega
    rw [contents_of_started s h0, contents_of_started _ (by simp only [if_neg hne]; exact h0)]
    simp only [if_neg hne]
    have hn : (s.rear + 1 - s.front + 1).toNat = (s.rear - s.front + 1).toNat + 1 := by omega
    have hlast : s.front + ((s.rear - s.front + 1).toNat : Int) = s.rear + 1 := by omega
    have hin : (s.rear + 1).toNat < s.inp_array.length := by omega
    rw [hn, scan_snoc, hlast, readAt_writeAt_same _ _ _ hin,
      scan_writeAt _ _ _ _ _ h0 (le_of_eq hlast)]

lemma dequeue_of_not_empty (s : State) (he : ¬ emptyTest s) :
    dequeue s = ({ s with front := s.front + 1 }, [Out.dequeued (readAt s.inp_array s.front)]) := by
  unfold dequeue
  rw [if_neg he]

lemma contents_dequeue (s : State) (h : Inv s) (he : ¬ emptyTest s) :
    contents s = readAt s.inp_array s.front :: contents (dequeue s).1 := by
  rw [dequeue_of_not_empty s he]
  simp only [emptyTest, not_or, not_lt] at he
  obtain ⟨hf, hle⟩ := he
  have h0 : 0 ≤ s.front := by
    rcases h.2 with ⟨h1, _⟩ | ⟨h1, _⟩
    · exact absurd h1 hf
    · exact h1
  rw [contents_of_started s h0, contents_of_started _ (by simp only; omega)]
  have hn : (s.rear - s.front + 1).toNat = (s.rear - (s.front + 1) + 1).toNat + 1 := by omega
  rw [hn, scan]

lemma size_eq_length (s : State) : size s = ((contents s).length : Int) := by
  unfold size contents
  split
  · rfl
  · next he =>
    simp only [emptyTest, not_or, not_lt] at he
    rw [length_scan]
    omega

lemma size_le (s : State) (h : Inv s) : size s ≤ SIZE := by
  obtain ⟨_, hidx⟩ := h
  unfold size
  simp only [emptyTest, SIZE] at hidx ⊢
  split <;> omega

lemma size_eq_zero_iff (s : State) : size s = 0 ↔ emptyTest s := by
  unfold size
  constructor
  · intro h
    by_contra he
    rw [if_neg he] at h
    simp only [emptyTest] at he
    omega
  · intro he
    rw [if_pos he]

lemma run_cons (s : State) (op : Op) (ops : List Op) :
    run s (op :: ops) = run (step s op).1 ops := rfl

lemma enqueue_of_full (s : State) (x : Int) (hr : s.rear = SIZE - 1) :
    enqueue s x = (s, [Out.overflow]) := by
  unfold enqueue
  rw [if_pos hr]

lemma dequeue_of_empty (s : State) (he : emptyTest s) : dequeue s = (s, [Out.underflow]) := by
  unfold dequeue
  rw [if_pos he]

lemma findMaxLoop_ge_init (arr : List Int) (n : Nat) (i m : Int) :
    m ≤ findMaxLoop arr n i m := by
  induction n generalizing i m with
  | zero => exact le_refl m
  | succ n ih =>
    rw [findMaxLoop]
    refine le_trans ?_ (ih _ _)
    split <;> omega

lemma findMaxLoop_ge_scan (arr : List Int) (n : Nat) (i m : Int) :
    ∀ e ∈ scan arr n i, e ≤ findMaxLoop arr n i m := by
  induction n generalizing i m with
  | zero => simp [scan]
  | succ n ih =>
    intro e he
    rw [findMaxLoop]
    rw [scan, List.mem_cons] at he
    rcases he with he | he
    · refine le_trans ?_ (findMaxLoop_ge_init _ _ _ _)
      subst he
      split <;> omega
    · exact ih _ _ e he

lemma findMaxLoop_mem (arr : List Int) (n : Nat) (i m : Int) :
    findMaxLoop arr n i m ∈ m :: scan arr n i := by
  induction n generalizing i m with
  | zero => simp [findMaxLoop]
  | succ n ih =>
    rw [findMaxLoop, scan]
    have := ih (i + 1) (if readAt arr i > m then readAt arr i else m)
    simp only [List.mem_cons] at this ⊢
    rcases this with h | h
    · rw [h]
      split
      · exact Or.inr (Or.inl rfl)
      · exact Or.inl rfl
    · exact Or.inr (Or.inr h)

lemma findMax_of_not_empty (s : State) (he : ¬ emptyTest s) :
    findMax s = ([], findMaxLoop s.inp_array (s.rear - s.front).toNat (s.front + 1)
      (readAt s.inp_array s.front)) := by
  unfold findMax
  rw [if_neg he]

lemma findMax_of_empty (s : State) (he : emptyTest s) : findMax s = ([Out.queueEmpty], 0) := by
  unfold findMax
  rw [if_pos he]

lemma contents_of_not_empty (s : State) (he : ¬ emptyTest s) :
    contents s =
      readAt s.inp_array s.front :: scan s.inp_array (s.rear - s.front).toNat (s.front + 1) := by
  unfold contents
  rw [if_neg he]
  simp only [emptyTest, not_or, not_lt] at he
  have hn : (s.rear - s.front + 1).toNat = (s.rear - s.front).toNat + 1 := by omega
  rw [hn, scan]

lemma findMax_mem (s : State) (he : ¬ emptyTest s) : (findMax s).2 ∈ contents s := by
  rw [findMax_of_not_empty s he, contents_of_not_empty s he]
  exact findMaxLoop_mem _ _ _ _

lemma findMax_ge (s : State) (he : ¬ emptyTest s) : ∀ e ∈ contents s, e ≤ (findMax s).2 := by
  rw [findMax_of_not_empty s he, contents_of_not_empty s he]
  intro e hmem
  rcases List.mem_cons.mp hmem with h | h
  · rw [h]
    exact findMaxLoop_ge_init _ _ _ _
  · exact findMaxLoop_ge_scan _ _ _ _ e h

end Queue

namespace Queue

lemma inv_reachable (ops : List Op) : Inv (run init ops) := inv_run ops init inv_init

lemma rear_of_size_eq_SIZE (s : State) (h : Inv s) (hs : size s = SIZE) : s.rear = SIZE - 1 := by
  obtain ⟨_, hidx⟩ := h
  unfold size at hs
  simp only [emptyTest, SIZE] at hidx hs ⊢
  split at hs <;> omega

lemma size_enqueue (s : State) (x : Int) (h : Inv s) (hr : s.rear ≠ SIZE - 1) :
    size (enqueue s x).1 = size s + 1 := by
  rw [size_eq_length, size_eq_length, contents_enqueue s x h hr]
  simp

lemma dequeue_inv_spec (s : State) (h : Inv s) :
    ((dequeue s).2 = [Out.underflow] ↔ size s = 0) ∧
    (size s = 0 → (dequeue s).1 = s) ∧
    (size s ≠ 0 → ∃ v rest, contents s = v :: rest ∧ (dequeue s).2 = [Out.dequeued v] ∧
      contents (dequeue s).1 = rest ∧ size (dequeue s).1 = size s - 1) := by
  by_cases he : emptyTest s
  · have hz : size s = 0 := (size_eq_zero_iff s).mpr he
    rw [dequeue_of_empty s he]
    exact ⟨⟨fun _ => hz, fun _ => rfl⟩, fun _ => rfl, fun hne => absurd hz hne⟩
  · have hz : size s ≠ 0 := fun hz => he ((size_eq_zero_iff s).mp hz)
    have hc := contents_dequeue s h he
    refine ⟨⟨fun hu => ?_, fun h0 => absurd h0 hz⟩, fun h0 => absurd h0 hz, fun _ => ?_⟩
    · rw [dequeue_of_not_empty s he] at hu
      simp at hu
    · refine ⟨readAt s.inp_array s.front, contents (dequeue s).1, hc, ?_, rfl, ?_⟩
      · rw [dequeue_of_not_empty s he]
      · rw [size_eq_length, size_eq_length s, hc]
        simp

end Queue

namespace BST

/-! ## Further lemmas for the tree -/

lemma insert_ne_self (t : Node) (v : Int) : insert t v ≠ t := by
  intro h
  have := length_inorder_insert t v
  rw [h] at this
  omega

lemma insertAll_append_singleton (xs : List Int) (x : Int) :
    insertAll (xs ++ [x]) = insert (insertAll xs) x := by
  simp [insertAll, List.foldl_append]

lemma all_iff_preorder (p : Int → Prop) (t : Node) :
    Node.All p t ↔ ∀ x ∈ preorder t, p x := by
  induction t with
  | null => simp [Node.All, preorder]
  | mk d l r ihl ihr =>
    simp only [Node.All, preorder, ihl, ihr, List.mem_append, List.mem_singleton]
    constructor
    · rintro ⟨hd, hl, hr⟩ x ((hx | hx) | hx)
      · exact hx ▸ hd
      · exact hl x hx
      · exact hr x hx
    · intro h
      exact ⟨h d (Or.inl (Or.inl rfl)), fun x hx => h x (Or.inl (Or.inr hx)),
        fun x hx => h x (Or.inr hx)⟩

lemma insert_rightChain (t : Node) (x : Int) (hc : RightChain t)
    (hle : ∀ a ∈ preorder t, a ≤ x) :
    RightChain (insert t x) ∧ preorder (insert t x) = preorder t ++ [x] := by
  induction t with
  | null => exact ⟨⟨rfl, trivial⟩, rfl⟩
  | mk d l r _ ihr =>
    obtain ⟨hl, hr⟩ := hc
    subst hl
    have hd : ¬ x < d := not_lt.mpr (hle d (by simp [preorder]))
    have ih := ihr hr (fun a ha => hle a (by simp [preorder, ha]))
    simp only [insert, if_neg hd]
    exact ⟨⟨rfl, ih.1⟩, by simp [preorder, ih.2]⟩

lemma rightChain_insertAll (xs : List Int) (h : List.Sorted (fun a b => a ≤ b) xs) :
    RightChain (insertAll xs) ∧ preorder (insertAll xs) = xs := by
  induction xs using List.reverseRecOn with
  | nil => exact ⟨trivial, rfl⟩
  | append_singleton xs x ih =>
    have hs : List.Pairwise (fun a b => a ≤ b) (xs ++ [x]) := h
    rw [List.pairwise_append] at hs
    obtain ⟨hxs, _, hle⟩ := hs
    obtain ⟨hc, hp⟩ := ih hxs
    rw [insertAll_append_singleton]
    have := insert_rightChain (insertAll xs) x hc
      (fun a ha => hle a (hp ▸ ha) x (List.mem_singleton.mpr rfl))
    exact ⟨this.1, by rw [this.2, hp]⟩

lemma nodeCount_eq_length (t : Node) : nodeCount t = (preorder t).length := by
  induction t with
  | null => rfl
  | mk d l r ihl ihr =>
    simp only [nodeCount, preorder, List.length_append, List.length_singleton, ihl, ihr]
    omega

lemma perm_inorder_insert (t : Node) (v : Int) :
    (inorderTraversal (insert t v)).Perm (v :: inorderTraversal t) := by
  induction t with
  | null => exact List.Perm.refl _
  | mk d l r ihl ihr =>
    unfold insert
    split
    · simp only [inorderTraversal, List.append_assoc]
      exact (List.Perm.append_right _ ihl)
    · simp only [inorderTraversal, List.append_assoc]
      refine (List.Perm.append_left _ (List.Perm.append_left _ ihr)).trans ?_
      have hm : ((inorderTraversal l ++ [d]) ++ v :: inorderTraversal r).Perm
          (v :: ((inorderTraversal l ++ [d]) ++ inorderTraversal r)) := List.perm_middle
      simpa only [List.append_assoc] using hm

lemma perm_inorder_foldl (xs : List Int) (t : Node) :
    (inorderTraversal (xs.foldl insert t)).Perm (inorderTraversal t ++ xs) := by
  induction xs generalizing t with
  | nil => simp
  | cons x xs ih =>
    rw [List.foldl_cons]
    refine (ih _).trans ?_
    refine (List.Perm.append_right _ (perm_inorder_insert t x)).trans ?_
    rw [List.cons_append]
    exact List.perm_middle.symm

lemma perm_preorder (t : Node) : (preorder t).Perm (inorderTraversal t) := by
  induction t with
  | null => exact List.Perm.refl _
  | mk d l r ihl ihr =>
    simp only [preorder, inorderTraversal, List.append_assoc, List.singleton_append]
    refine List.Perm.trans ?_ List.perm_middle.symm
    exact List.Perm.cons _ (List.Perm.append ihl ihr)

lemma perm_postorder (t : Node) : (postorder t).Perm (inorderTraversal t) := by
  induction t with
  | null => exact List.Perm.refl _
  | mk d l r ihl ihr =>
    simp only [postorder, inorderTraversal, List.append_assoc]
    refine List.Perm.append ihl ?_
    refine List.Perm.trans List.perm_append_comm ?_
    exact List.Perm.append_left _ ihr

lemma perm_inorder_insertAll (xs : List Int) : (inorderTraversal (insertAll xs)).Perm xs := by
  have := perm_inorder_foldl xs Node.null
  simpa [insertAll, inorderTraversal] using this

lemma foldl_insert_node (xs : List Int) (d : Int) (a b : Node) :
    xs.foldl insert (Node.mk d a b) =
      Node.mk d ((xs.filter (fun x => decide (x < d))).foldl insert a)
        ((xs.filter (fun x => decide (d ≤ x))).foldl insert b) := by
  induction xs generalizing a b with
  | nil => rfl
  | cons x xs ih =>
    rw [List.foldl_cons]
    by_cases hx : x < d
    · have hx' : ¬ d ≤ x := not_le.mpr hx
      simp only [insert, if_pos hx]
      rw [ih]
      simp [List.filter_cons, hx, hx']
    · have hx' : d ≤ x := not_lt.mp hx
      simp only [insert, if_neg hx]
      rw [ih]
      simp [List.filter_cons, hx, hx']

lemma insertAll_preorder (t : Node) (h : Ordered t) : insertAll (preorder t) = t := by
  induction t with
  | null => rfl
  | mk d l r ihl ihr =>
    obtain ⟨hl, hr, ol, or⟩ := h
    rw [all_iff_preorder] at hl hr
    have hll : (preorder l).filter (fun x => decide (x < d)) = preorder l :=
      List.filter_eq_self.mpr (fun x hx => by simpa using hl x hx)
    have hlr : (preorder r).filter (fun x => decide (x < d)) = [] :=
      List.filter_eq_nil_iff.mpr (fun x hx => by simpa using hr x hx)
    have hrl : (preorder l).filter (fun x => decide (d ≤ x)) = [] :=
      List.filter_eq_nil_iff.mpr (fun x hx => by simpa using hl x hx)
    have hrr : (preorder r).filter (fun x => decide (d ≤ x)) = preorder r :=
      List.filter_eq_self.mpr (fun x hx => by simpa using hr x hx)
    have hl' := ihl ol
    have hr' := ihr or
    unfold insertAll at hl' hr' ⊢
    show List.foldl insert Node.null (([d] ++ preorder l) ++ preorder r) = _
    rw [List.append_assoc, List.singleton_append, List.foldl_cons]
    show List.foldl insert (Node.mk d Node.null Node.null) (preorder l ++ preorder r) = _
    rw [foldl_insert_node, List.filter_append, List.filter_append, hll, hlr, hrl, hrr,
      List.append_nil, List.nil_append, hl', hr']

end BST

namespace Queue

/-! ## Further lemmas for the queue -/

lemma run_append (s : State) (ops more : List Op) :
    run s (ops ++ more) = run (run s ops) more := by
  simp [run, List.foldl_append]

lemma enqueue_overflow_iff (s : State) (x : Int) :
    (enqueue s x).2 = [Out.overflow] ↔ s.rear = SIZE - 1 := by
  by_cases hr : s.rear = SIZE - 1
  · simp [enqueue_of_full s x hr, hr]
  · simp [enqueue_of_not_full s x hr, hr]

lemma rear_step (s : State) (op : Op) :
    (step s op).1.rear = s.rear + ((acceptedBy s op).toList.length : Int) := by
  cases op with
  | enq x =>
    by_cases hr : s.rear = SIZE - 1
    · simp [step, acceptedBy, enqueue_of_full s x hr]
    · simp [step, acceptedBy, enqueue_of_not_full s x hr]
  | deq =>
    by_cases he : emptyTest s
    · simp [step, acceptedBy, dequeue_of_empty s he]
    · simp [step, acceptedBy, dequeue_of_not_empty s he]

lemma rear_run (ops : List Op) (s : State) :
    (run s ops).rear = s.rear + ((accepted s ops).length : Int) := by
  induction ops generalizing s with
  | nil => simp [run, accepted]
  | cons op ops ih =>
    rw [run_cons, ih, rear_step, accepted, List.length_append]
    push_cast
    ring

lemma rear_le_run (ops : List Op) (s : State) : s.rear ≤ (run s ops).rear := by
  rw [rear_run]
  omega

lemma rear_le_of_inv (s : State) (h : Inv s) : s.rear ≤ SIZE - 1 := by
  obtain ⟨_, hidx⟩ := h
  simp only [SIZE] at hidx ⊢
  omega

lemma indexInv_init : IndexInv init := by decide

lemma indexInv_step (s : State) (op : Op) (h : IndexInv s) : IndexInv (step s op).1 := by
  obtain ⟨h1, h2, h3, h4⟩ := h
  cases op with
  | enq x =>
    by_cases hr : s.rear = SIZE - 1
    · simp only [step, enqueue_of_full s x hr]
      exact ⟨h1, h2, h3, h4⟩
    · simp only [step, enqueue_of_not_full s x hr, IndexInv]
      simp only [SIZE] at hr h2 ⊢
      by_cases hf : s.front = -1
      · simp only [if_pos hf]
        omega
      · have := h4 hf
        simp only [if_neg hf]
        omega
  | deq =>
    by_cases he : emptyTest s
    · simp only [step, dequeue_of_empty s he]
      exact ⟨h1, h2, h3, h4⟩
    · simp only [step, dequeue_of_not_empty s he, IndexInv]
      simp only [emptyTest, not_or, not_lt] at he
      have := h4 he.1
      simp only [SIZE] at h2 ⊢
      omega

lemma indexInv_run (ops : List Op) (s : State) (h : IndexInv s) : IndexInv (run s ops) := by
  induction ops generalizing s with
  | nil => exact h
  | cons op ops ih => exact ih _ (indexInv_step s op h)

lemma mem_loopIndices (n : Nat) (i j : Int) :
    j ∈ loopIndices n i ↔ i ≤ j ∧ j < i + n := by
  induction n generalizing i with
  | zero =>
    simp only [loopIndices, List.not_mem_nil, Nat.cast_zero, add_zero, false_iff]
    omega
  | succ n ih =>
    simp only [loopIndices, List.mem_cons, ih, Nat.cast_add, Nat.cast_one]
    omega

lemma scan_eq_map (arr : List Int) (n : Nat) (i : Int) :
    scan arr n i = (loopIndices n i).map (readAt arr) := by
  induction n generalizing i with
  | zero => rfl
  | succ n ih => simp [scan, loopIndices, ih]

lemma filterMap_elementValue (l : List Int) :
    (l.map Out.element).filterMap Out.elementValue = l := by
  induction l with
  | nil => rfl
  | cons a l ih => simp [Out.elementValue, ih]

lemma show_of_empty (s : State) (he : emptyTest s) : «show» s = [Out.queueEmpty] := by
  unfold «show»
  rw [if_pos he]

lemma show_of_not_empty (s : State) (he : ¬ emptyTest s) :
    «show» s = Out.elementsPresent :: (contents s).map Out.element := by
  unfold «show» contents
  rw [if_neg he, if_neg he]

end Queue

namespace Queue

/-! ## The statement-level model of the read-only functions -/

lemma exec_showLoop (k : Nat) (i : Int) (m : Machine)
    (hk : (m.globals.rear - i + 1).toNat = k) :
    Exec.showLoop (k + 1) i m =
      some { globals := m.globals,
             out := m.out ++ (scan m.globals.inp_array k i).map Out.element } := by
  induction k generalizing i m with
  | zero =>
    have hi : ¬ i ≤ m.globals.rear := by omega
    simp [Exec.showLoop, hi, scan]
  | succ k ih =>
    have hi : i ≤ m.globals.rear := by omega
    rw [Exec.showLoop, if_pos hi, ih (i + 1) _ (by simp only [printf]; omega)]
    simp [printf, scan]

lemma exec_show (s : State) (out : List Out) :
    Exec.«show» (Machine.mk s out) = some (Machine.mk s (out ++ «show» s)) := by
  unfold Exec.«show» «show»
  by_cases he : emptyTest s
  · have he' : s.front = -1 ∨ s.front > s.rear := he
    simp [he, he', printf]
  · have he' : ¬ (s.front = -1 ∨ s.front > s.rear) := he
    simp only [he', if_false, if_neg he]
    rw [exec_showLoop (s.rear - s.front + 1).toNat s.front
      (printf Out.elementsPresent (Machine.mk s out)) (by simp only [printf])]
    simp [printf]

lemma exec_size (s : State) (out : List Out) :
    Exec.size (Machine.mk s out) = (Machine.mk s out, size s) := by
  unfold Exec.size size
  by_cases he : emptyTest s
  · have he' : s.front = -1 ∨ s.front > s.rear := he
    simp [he, he']
  · have he' : ¬ (s.front = -1 ∨ s.front > s.rear) := he
    simp [he, he']

lemma exec_findMaxLoop (k : Nat) (i mx : Int) (m : Machine)
    (hk : (m.globals.rear - i + 1).toNat = k) :
    Exec.findMaxLoop (k + 1) i mx m = some (m, findMaxLoop m.globals.inp_array k i mx) := by
  induction k generalizing i mx with
  | zero =>
    have hi : ¬ i ≤ m.globals.rear := by omega
    simp [Exec.findMaxLoop, hi, findMaxLoop]
  | succ k ih =>
    have hi : i ≤ m.globals.rear := by omega
    rw [Exec.findMaxLoop, if_pos hi, ih (i + 1) _ (by omega), findMaxLoop]

lemma exec_findMax (s : State) (out : List Out) :
    Exec.findMax (Machine.mk s out) =
      some (Machine.mk s (out ++ (findMax s).1), (findMax s).2) := by
  unfold Exec.findMax findMax
  by_cases he : emptyTest s
  · have he' : s.front = -1 ∨ s.front > s.rear := he
    simp [he, he', printf]
  · have he' : ¬ (s.front = -1 ∨ s.front > s.rear) := he
    simp only [he', if_false, if_neg he]
    rw [exec_findMaxLoop _ _ _ _ (by simp only; omega)]
    simp

lemma show_eq_contents (s : State) :
    «show» s =
      if size s = 0 then [Out.queueEmpty]
      else Out.elementsPresent :: (contents s).map Out.element := by
  by_cases he : emptyTest s
  · rw [if_pos ((size_eq_zero_iff s).mpr he), show_of_empty s he]
  · have hz : size s ≠ 0 := fun hz => he ((size_eq_zero_iff s).mp hz)
    rw [if_neg hz, show_of_not_empty s he]

lemma show_elements (s : State) : («show» s).filterMap Out.elementValue = contents s := by
  by_cases he : emptyTest s
  · rw [show_of_empty s he]
    simp [contents, he, Out.elementValue]
  · rw [show_of_not_empty s he, List.filterMap_cons]
    simp only [Out.elementValue]
    exact filterMap_elementValue _

end Queue

/-! ## The specified properties -/

namespace BST

/-- C1: for every list `xs` of integers, the inorder output of the tree built by
inserting the elements of `xs` in order into the empty tree is non-decreasing. -/
theorem inorder_insertAll_sorted (xs : List Int) :
    List.Sorted (fun a b => a ≤ b) (inorderTraversal (insertAll xs)) :=
  sorted_of_ordered _ (ordered_foldl xs Node.null trivial)

/-- C9: `insert` preserves the ordering invariant (left subtree strictly
smaller, right subtree greater or equal, at every node), and so every tree
built from the empty tree by insertions satisfies it. -/
theorem insert_preserves_ordered :
    (∀ (t : Node) (v : Int), Ordered t → Ordered (insert t v)) ∧
      (∀ xs : List Int, Ordered (insertAll xs)) :=
  ⟨fun t v h => ordered_insert t v h, fun xs => ordered_foldl xs Node.null trivial⟩

/-- Instance of C9 on the tree built from `[5, 3, 8]`, inserting `3` again. -/
theorem insert_preserves_ordered_witness :
    Ordered (insertAll [5, 3, 8]) ∧ Ordered (insert (insertAll [5, 3, 8]) 3) :=
  ⟨by decide, insert_preserves_ordered.1 (insertAll [5, 3, 8]) 3 (by decide)⟩

/-- C10: the inorder, preorder and postorder outputs of the tree built by
inserting `xs` into the empty tree all have `xs.length` elements, and the three
outputs of the empty tree are empty. -/
theorem traversal_lengths (xs : List Int) :
    ((inorderTraversal (insertAll xs)).length = xs.length ∧
      (preorder (insertAll xs)).length = xs.length ∧
      (postorder (insertAll xs)).length = xs.length) ∧
    (inorderTraversal Node.null = [] ∧ preorder Node.null = [] ∧ postorder Node.null = []) := by
  have h : (inorderTraversal (insertAll xs)).length = xs.length := by
    rw [insertAll, length_inorder_foldl]
    simp [inorderTraversal]
  exact ⟨⟨h, (length_preorder _).trans h, (length_postorder _).trans h⟩, rfl, rfl, rfl⟩

end BST

namespace Queue

/-- C4: in every reachable state whose `size()` equals `SIZE`, `enqueue` prints
`Overflow!!` and leaves `front`, `rear` and the array unchanged. -/
theorem enqueue_full_overflow (ops : List Op) (x : Int) (h : size (run init ops) = SIZE) :
    enqueue (run init ops) x = (run init ops, [Out.overflow]) :=
  enqueue_of_full _ x (rear_of_size_eq_SIZE _ (inv_reachable ops) h)

/-- Instance of C4 after four enqueues. -/
theorem enqueue_full_overflow_witness :
    size (run init [Op.enq 1, Op.enq 2, Op.enq 3, Op.enq 4]) = SIZE ∧
      enqueue (run init [Op.enq 1, Op.enq 2, Op.enq 3, Op.enq 4]) 5 =
        (run init [Op.enq 1, Op.enq 2, Op.enq 3, Op.enq 4], [Out.overflow]) :=
  ⟨by decide, enqueue_full_overflow [Op.enq 1, Op.enq 2, Op.enq 3, Op.enq 4] 5 (by decide)⟩

/-- C5 fails as stated: after four enqueues and one dequeue, `size()` is `3`,
below `SIZE`, and yet `enqueue` prints `Overflow!!` and changes nothing. -/
theorem enqueue_overflow_below_capacity :
    size (run init [Op.enq 1, Op.enq 2, Op.enq 3, Op.enq 4, Op.deq]) = 3 ∧
      size (run init [Op.enq 1, Op.enq 2, Op.enq 3, Op.enq 4, Op.deq]) < SIZE ∧
      enqueue (run init [Op.enq 1, Op.enq 2, Op.enq 3, Op.enq 4, Op.deq]) 5 =
        (run init [Op.enq 1, Op.enq 2, Op.enq 3, Op.enq 4, Op.deq], [Out.overflow]) := by
  decide

/-- C5, amended: in every reachable state with `rear < SIZE - 1` (which implies
`size() < SIZE`), `enqueue(v)` does not print `Overflow!!`, the front-to-rear
contents become the old contents followed by `v`, and `size()` grows by one. -/
theorem enqueue_appends (ops : List Op) (v : Int) (h : (run init ops).rear < SIZE - 1) :
    size (run init ops) < SIZE ∧
      (enqueue (run init ops) v).2 ≠ [Out.overflow] ∧
      contents (enqueue (run init ops) v).1 = contents (run init ops) ++ [v] ∧
      size (enqueue (run init ops) v).1 = size (run init ops) + 1 := by
  have hinv := inv_reachable ops
  have hr : (run init ops).rear ≠ SIZE - 1 := ne_of_lt h
  refine ⟨?_, ?_, contents_enqueue _ v hinv hr, size_enqueue _ v hinv hr⟩
  · have hle := size_le _ hinv
    rcases lt_or_eq_of_le hle with hlt | heq
    · exact hlt
    · exact absurd (rear_of_size_eq_SIZE _ hinv heq) hr
  · rw [enqueue_of_not_full _ v hr]
    simp

/-- Instance of the amended C5 after two enqueues and one dequeue. -/
theorem enqueue_appends_witness :
    (run init [Op.enq 1, Op.enq 2, Op.deq]).rear < SIZE - 1 ∧
      (size (run init [Op.enq 1, Op.enq 2, Op.deq]) < SIZE ∧
        (enqueue (run init [Op.enq 1, Op.enq 2, Op.deq]) 7).2 ≠ [Out.overflow] ∧
        contents (enqueue (run init [Op.enq 1, Op.enq 2, Op.deq]) 7).1 =
          contents (run init [Op.enq 1, Op.enq 2, Op.deq]) ++ [7] ∧
        size (enqueue (run init [Op.enq 1, Op.enq 2, Op.deq]) 7).1 =
          size (run init [Op.enq 1, Op.enq 2, Op.deq]) + 1) :=
  ⟨by decide, enqueue_appends [Op.enq 1, Op.enq 2, Op.deq] 7 (by decide)⟩

/-- C6: in every reachable state, `dequeue` prints `Underflow!!` exactly when
`size()` is `0`, and then changes nothing; otherwise it prints the first
element of the front-to-rear contents, the contents lose that element, and
`size()` decreases by one. -/
theorem dequeue_spec (ops : List Op) :
    ((dequeue (run init ops)).2 = [Out.underflow] ↔ size (run init ops) = 0) ∧
    (size (run init ops) = 0 → (dequeue (run init ops)).1 = run init ops) ∧
    (size (run init ops) ≠ 0 → ∃ v rest, contents (run init ops) = v :: rest ∧
      (dequeue (run init ops)).2 = [Out.dequeued v] ∧
      contents (dequeue (run init ops)).1 = rest ∧
      size (dequeue (run init ops)).1 = size (run init ops) - 1) :=
  dequeue_inv_spec _ (inv_reachable ops)

/-- C7: in every reachable non-empty state, `findMax` returns a value that is
one of the elements at positions `front .. rear` and is greater than or equal
to each of them; on contents `[5, 2, 9, 1]` it returns `9`. -/
theorem findMax_is_maximum (ops : List Op) (h : size (run init ops) ≠ 0) :
    ((findMax (run init ops)).2 ∈ contents (run init ops) ∧
      ∀ e ∈ contents (run init ops), e ≤ (findMax (run init ops)).2) ∧
    (contents (run init ops) = [5, 2, 9, 1] → (findMax (run init ops)).2 = 9) := by
  have he : ¬ emptyTest (run init ops) := fun he => h ((size_eq_zero_iff _).mpr he)
  have hmem := findMax_mem _ he
  have hge := findMax_ge _ he
  refine ⟨⟨hmem, hge⟩, fun hc => ?_⟩
  rw [hc] at hmem hge
  have h9 := hge 9 (by simp)
  simp only [List.mem_cons, List.mem_singleton, List.not_mem_nil, or_false] at hmem
  omega

/-- Instance of C7 after enqueuing `5, 2, 9, 1`. -/
theorem findMax_is_maximum_witness :
    size (run init [Op.enq 5, Op.enq 2, Op.enq 9, Op.enq 1]) ≠ 0 ∧
      contents (run init [Op.enq 5, Op.enq 2, Op.enq 9, Op.enq 1]) = [5, 2, 9, 1] ∧
      (findMax (run init [Op.enq 5, Op.enq 2, Op.enq 9, Op.enq 1])).2 = 9 :=
  ⟨by decide, by decide,
    (findMax_is_maximum [Op.enq 5, Op.enq 2, Op.enq 9, Op.enq 1] (by decide)).2 (by decide)⟩

/-- C8 fails as stated: on the initial (empty) queue `findMax` returns the
integer `0`, the same result as on the queue holding the single element `0`,
and `main` prints it as the maximum (`Max Element: 0`). -/
theorem findMax_empty_returns_int :
    size init = 0 ∧ (findMax init).2 = 0 ∧ (findMax (run init [Op.enq 0])).2 = 0 ∧
      size (run init [Op.enq 0]) ≠ 0 ∧ Out.maxElement 0 ∈ (mainRound init 5 0).2 := by
  decide

/-- C8, amended: in every reachable state with `size() = 0`, `findMax` prints
`Queue is empty!!` and returns the integer `0`; `main` (choice 5) then prints
that value as `Max Element: 0`. -/
theorem findMax_empty (ops : List Op) (h : size (run init ops) = 0) :
    findMax (run init ops) = ([Out.queueEmpty], 0) ∧
      ∀ x : Int, (mainRound (run init ops) 5 x).2 =
        [Out.menu, Out.queueEmpty, Out.maxElement 0] := by
  have hf := findMax_of_empty _ ((size_eq_zero_iff _).mp h)
  refine ⟨hf, fun x => ?_⟩
  simp [mainRound, hf]

/-- Instance of the amended C8 on the queue drained after one enqueue. -/
theorem findMax_empty_witness :
    size (run init [Op.enq 3, Op.deq]) = 0 ∧
      (findMax (run init [Op.enq 3, Op.deq]) = ([Out.queueEmpty], 0) ∧
        ∀ x : Int, (mainRound (run init [Op.enq 3, Op.deq]) 5 x).2 =
          [Out.menu, Out.queueEmpty, Out.maxElement 0]) :=
  ⟨by decide, findMax_empty [Op.enq 3, Op.deq] (by decide)⟩

end Queue

namespace BST

/-- C11: for every non-empty tree `t` and every `v`, `insert(t, v)` has the
root of `t`: the same value at the root, one child replaced by the result of
inserting `v` into it (a different tree), and the other child unchanged. -/
theorem insert_keeps_root (t : Node) (v : Int) (h : t ≠ Node.null) :
    ∃ d l r, t = Node.mk d l r ∧
      ((v < d ∧ insert t v = Node.mk d (insert l v) r ∧ insert l v ≠ l) ∨
        (d ≤ v ∧ insert t v = Node.mk d l (insert r v) ∧ insert r v ≠ r)) := by
  cases t with
  | null => exact absurd rfl h
  | mk d l r =>
    refine ⟨d, l, r, rfl, ?_⟩
    by_cases hv : v < d
    · exact Or.inl ⟨hv, by simp only [insert, if_pos hv], insert_ne_self l v⟩
    · exact Or.inr ⟨not_lt.mp hv, by simp only [insert, if_neg hv], insert_ne_self r v⟩

/-- Instance of C11: inserting `58` into the one-node tree holding `35`. -/
theorem insert_keeps_root_witness :
    createNode 35 ≠ Node.null ∧
      ∃ d l r, createNode 35 = Node.mk d l r ∧
        ((58 < d ∧ insert (createNode 35) 58 = Node.mk d (insert l 58) r ∧ insert l 58 ≠ l) ∨
          (d ≤ 58 ∧ insert (createNode 35) 58 = Node.mk d l (insert r 58) ∧ insert r 58 ≠ r)) :=
  ⟨by decide, insert_keeps_root (createNode 35) 58 (by decide)⟩

/-- C12: inserting `35, 58, 40, 25, 30, 60, 78, 20, 28` in that order into the
empty tree gives the inorder output `20 25 28 30 35 40 58 60 78`, which is the
`Inorder` line of `main`. -/
theorem main_inorder :
    inorderTraversal (insertAll [35, 58, 40, 25, 30, 60, 78, 20, 28]) =
        [20, 25, 28, 30, 35, 40, 58, 60, 78] ∧
      main.1 = [20, 25, 28, 30, 35, 40, 58, 60, 78] := by
  decide

/-- C15: ties go right.  For a non-decreasing list `xs`, the tree built by
inserting `xs` in order has an empty left child at every node, has
`xs.length` nodes, and its preorder output is `xs`. -/
theorem sorted_input_right_chain (xs : List Int) (h : List.Sorted (fun a b => a ≤ b) xs) :
    RightChain (insertAll xs) ∧ nodeCount (insertAll xs) = xs.length ∧
      preorder (insertAll xs) = xs := by
  obtain ⟨hc, hp⟩ := rightChain_insertAll xs h
  exact ⟨hc, by rw [nodeCount_eq_length, hp], hp⟩

/-- Instance of C15 on three copies of one value followed by a larger one. -/
theorem sorted_input_right_chain_witness :
    List.Sorted (fun a b => a ≤ b) [7, 7, 7, 9] ∧
      (RightChain (insertAll [7, 7, 7, 9]) ∧ nodeCount (insertAll [7, 7, 7, 9]) = 4 ∧
        preorder (insertAll [7, 7, 7, 9]) = [7, 7, 7, 9]) :=
  ⟨by decide, sorted_input_right_chain [7, 7, 7, 9] (by decide)⟩

/-- C18: the inorder, preorder and postorder outputs of the tree built by
inserting `xs` are permutations of `xs`, and the inorder output is `xs` sorted
in ascending order. -/
theorem traversals_perm (xs : List Int) :
    (inorderTraversal (insertAll xs)).Perm xs ∧ (preorder (insertAll xs)).Perm xs ∧
      (postorder (insertAll xs)).Perm xs ∧
      inorderTraversal (insertAll xs) = xs.insertionSort (fun a b => a ≤ b) := by
  have hi := perm_inorder_insertAll xs
  refine ⟨hi, (perm_preorder _).trans hi, (perm_postorder _).trans hi, ?_⟩
  exact List.eq_of_perm_of_sorted (hi.trans (List.perm_insertionSort _ xs).symm)
    (sorted_of_ordered _ (ordered_foldl xs Node.null trivial))
    (List.sorted_insertionSort _ xs)

/-- C20: preorder round trip.  Inserting the preorder output of an ordered
tree, in order, into the empty tree rebuilds the same tree. -/
theorem preorder_round_trip (t : Node) (h : Ordered t) : insertAll (preorder t) = t :=
  insertAll_preorder t h

/-- Instance of C20 on the tree that `main` builds. -/
theorem preorder_round_trip_witness :
    Ordered (insertAll mainValues) ∧
      insertAll (preorder (insertAll mainValues)) = insertAll mainValues :=
  ⟨by decide, preorder_round_trip (insertAll mainValues) (by decide)⟩

end BST

namespace Queue

/-- C13: from the initial queue of capacity 4, enqueuing `1, 2, 3, 4` succeeds,
a fifth enqueue prints `Overflow!!`, four dequeues print `1, 2, 3, 4` in that
order, and a fifth dequeue prints `Underflow!!`. -/
theorem capacity_four_scenario :
    trace init [Op.enq 1, Op.enq 2, Op.enq 3, Op.enq 4, Op.enq 5,
        Op.deq, Op.deq, Op.deq, Op.deq, Op.deq] =
      [Out.enterElement, Out.enterElement, Out.enterElement, Out.enterElement, Out.overflow,
        Out.dequeued 1, Out.dequeued 2, Out.dequeued 3, Out.dequeued 4, Out.underflow] ∧
    accepted init [Op.enq 1, Op.enq 2, Op.enq 3, Op.enq 4, Op.enq 5,
        Op.deq, Op.deq, Op.deq, Op.deq, Op.deq] = [1, 2, 3, 4] ∧
    removed init [Op.enq 1, Op.enq 2, Op.enq 3, Op.enq 4, Op.enq 5,
        Op.deq, Op.deq, Op.deq, Op.deq, Op.deq] = [1, 2, 3, 4] := by
  decide

/-- C14: freed front slots are never reclaimed.  After any sequence of
operations, `rear` never decreases afterwards, `enqueue` succeeds exactly when
`rear < SIZE - 1`, at most `SIZE` enqueues have succeeded, and once `size()` has
reached `SIZE` every later `enqueue` prints `Overflow!!` and changes nothing,
whatever was dequeued in between. -/
theorem slots_never_reclaimed (ops : List Op) :
    (∀ more : List Op, (run init ops).rear ≤ (run init (ops ++ more)).rear) ∧
    (∀ x : Int, (enqueue (run init ops) x).2 ≠ [Out.overflow] ↔
      (run init ops).rear < SIZE - 1) ∧
    ((accepted init ops).length : Int) ≤ SIZE ∧
    (size (run init ops) = SIZE → ∀ (more : List Op) (x : Int),
      enqueue (run init (ops ++ more)) x = (run init (ops ++ more), [Out.overflow])) := by
  have hinv := inv_reachable ops
  have hle := rear_le_of_inv _ hinv
  refine ⟨fun more => ?_, fun x => ?_, ?_, fun hs more x => ?_⟩
  · rw [run_append]
    exact rear_le_run more _
  · rw [Ne, enqueue_overflow_iff]
    constructor
    · intro hne
      exact lt_of_le_of_ne hle hne
    · intro hlt
      exact ne_of_lt hlt
  · have hr := rear_run ops init
    have h0 : init.rear = -1 := rfl
    simp only [SIZE] at hle ⊢
    omega
  · have hfull := rear_of_size_eq_SIZE _ hinv hs
    have hmono : (run init ops).rear ≤ (run init (ops ++ more)).rear := by
      rw [run_append]
      exact rear_le_run more _
    have hle2 := rear_le_of_inv _ (inv_reachable (ops ++ more))
    exact enqueue_of_full _ x (le_antisymm hle2 (hfull ▸ hmono))

/-- Instance of C14: after four enqueues and four dequeues `size()` is `0` and
`enqueue` still prints `Overflow!!`. -/
theorem slots_never_reclaimed_witness :
    size (run init [Op.enq 1, Op.enq 2, Op.enq 3, Op.enq 4]) = SIZE ∧
      size (run init ([Op.enq 1, Op.enq 2, Op.enq 3, Op.enq 4] ++
        [Op.deq, Op.deq, Op.deq, Op.deq])) = 0 ∧
      enqueue (run init ([Op.enq 1, Op.enq 2, Op.enq 3, Op.enq 4] ++
          [Op.deq, Op.deq, Op.deq, Op.deq])) 9 =
        (run init ([Op.enq 1, Op.enq 2, Op.enq 3, Op.enq 4] ++
          [Op.deq, Op.deq, Op.deq, Op.deq]), [Out.overflow]) :=
  ⟨by decide, by decide,
    (slots_never_reclaimed [Op.enq 1, Op.enq 2, Op.enq 3, Op.enq 4]).2.2.2 (by decide)
      [Op.deq, Op.deq, Op.deq, Op.deq] 9⟩

/-- C16: in every reachable state, running `show`, `size` or `findMax`
statement by statement ends with `front`, `rear` and the array as they were;
the elements `show` prints are exactly those at `front .. rear`, in order; and
a second `show` right after the first prints the same output again. -/
theorem read_only_operations (ops : List Op) (out : List Out) :
    (Exec.«show» (Machine.mk (run init ops) out) =
        some (Machine.mk (run init ops) (out ++ «show» (run init ops))) ∧
      Exec.size (Machine.mk (run init ops) out) =
        (Machine.mk (run init ops) out, size (run init ops)) ∧
      Exec.findMax (Machine.mk (run init ops) out) =
        some (Machine.mk (run init ops) (out ++ (findMax (run init ops)).1),
          (findMax (run init ops)).2)) ∧
    ((«show» (run init ops)).filterMap Out.elementValue = contents (run init ops) ∧
      («show» (run init ops) =
        if size (run init ops) = 0 then [Out.queueEmpty]
        else Out.elementsPresent :: (contents (run init ops)).map Out.element)) ∧
    (Exec.«show» (Machine.mk (run init ops) out)).bind Exec.«show» =
      some (Machine.mk (run init ops)
        (out ++ «show» (run init ops) ++ «show» (run init ops))) := by
  refine ⟨⟨exec_show _ _, exec_size _ _, exec_findMax _ _⟩,
    ⟨show_elements _, show_eq_contents _⟩, ?_⟩
  rw [exec_show]
  show Exec.«show» _ = _
  rw [exec_show]

/-- C17 fails on the code: choice 5 prints the maximum and then, having no
`break`, runs into `exit(0)`, so the round ends the program in every state; a
round ends the program exactly on the choices 5 and 6. -/
theorem choice_five_exits (s : State) (x : Int) :
    mainRound s 5 x = (none, Out.menu :: ((findMax s).1 ++ [Out.maxElement (findMax s).2])) ∧
      ∀ choice : Int, (mainRound s choice x).1 = none ↔ (choice = 5 ∨ choice = 6) := by
  refine ⟨by simp [mainRound], fun choice => ?_⟩
  unfold mainRound
  constructor
  · intro h
    by_contra hc
    simp only [not_or] at hc
    split_ifs at h <;> simp_all
  · rintro (h | h) <;> subst h <;> simp

/-- C19: index safety.  In every reachable state `-1 ≤ rear ≤ SIZE - 1`,
`front = -1` exactly when `rear = -1`, otherwise `0 ≤ front ≤ rear + 1`, the
array has `SIZE` cells, and every index at which `enqueue`, `dequeue`, `show`
or `findMax` accesses the array lies in `0 .. SIZE - 1`. -/
theorem index_safety (ops : List Op) :
    IndexInv (run init ops) ∧ ((run init ops).inp_array.length : Int) = SIZE ∧
      ∀ i ∈ enqueueAccess (run init ops) ++ dequeueAccess (run init ops) ++
          showAccess (run init ops) ++ findMaxAccess (run init ops),
        0 ≤ i ∧ i ≤ SIZE - 1 := by
  have hidx := indexInv_run ops init indexInv_init
  have hlen := (inv_reachable ops).1
  refine ⟨hidx, by rw [hlen]; rfl, fun i hi => ?_⟩
  obtain ⟨h1, h2, h3, h4⟩ := hidx
  simp only [List.mem_append, enqueueAccess, dequeueAccess, showAccess, findMaxAccess] at hi
  simp only [SIZE] at h2 hi ⊢
  rcases hi with ((hi | hi) | hi) | hi
  · split at hi
    · simp at hi
    · simp only [List.mem_singleton] at hi
      omega
  · split at hi
    · simp at hi
    · next he =>
      simp only [emptyTest, not_or, not_lt] at he
      simp only [List.mem_singleton] at hi
      have := h4 he.1
      omega
  · split at hi
    · simp at hi
    · next he =>
      simp only [emptyTest, not_or, not_lt] at he
      rw [mem_loopIndices] at hi
      have := h4 he.1
      omega
  · split at hi
    · simp at hi
    · next he =>
      simp only [emptyTest, not_or, not_lt] at he
      simp only [List.mem_cons, mem_loopIndices] at hi
      have := h4 he.1
      omega

end Queue
